import Mathlib

/-!
Verification of the alignment / diarization-fusion core of the `oatmeal`
transcription pipeline.

The embedded code comes from:
* `processing/aligner.py` — class `Aligner` (`align`, `find_best_match`,
  `merge_consecutive_segments`, `get_last_segment`);
* `processing/multi_transcription_aligner.py` — class
  `MultiTranscriptionAligner` (`align`, `align_enhanced`).

Modelling conventions:
* Python floats (IEEE-754 binary64) are embedded as their exact rational
  values (`ℚ`).  Comparison of two stored floats is exact, so comparisons
  are plain `ℚ` comparisons; arithmetic on floats rounds, so every float
  addition / subtraction / division in the source is wrapped in `flOfRat`,
  which rounds a rational to the nearest binary64 value (round to nearest,
  ties to even; normal range — subnormals and overflow are outside the
  range of any value considered here).
* A pyannote diarization result is embedded as the list of its turns in iteration
  order (`itertracks` and `itersegments` traverse the same segments in the
  same chronological order); `get_last_segment` returns `none` on an empty
  diarization result, in which case the attribute access `.end` in
  `Aligner.align` raises `AttributeError` — embedded as the `none` result
  of `Aligner.align`.
* Python's `list.sort(key=...)` is a stable sort; it is embedded as a
  stable insertion sort (`pySortByStart`).
-/

/-- One diarization turn, as yielded by `itertracks(yield_label=True)`:
start time, end time, speaker label.  (`stop` stands for the Python
attribute `end`, which is not a valid Lean field name here.) -/
structure Turn where
  start : ℚ
  stop : ℚ
  speaker : String
deriving DecidableEq, Repr

/-- One transcription chunk `{"timestamp": (start, end), "text": ...}`;
`end` may be `None` for the final chunk of a stream. -/
structure Chunk where
  start : ℚ
  stop : Option ℚ
  text : String
deriving DecidableEq, Repr

/-- One speaker-attributed tuple `(speaker, chunk_start, chunk_end, text)`
as built by `Aligner.align` and consumed by `merge_consecutive_segments`. -/
structure SpEntry where
  speaker : String
  start : ℚ
  stop : ℚ
  text : String
deriving DecidableEq, Repr

/-- `2 ^ e` in `ℚ` for an integer exponent. -/
def pow2 (e : ℤ) : ℚ := 2 ^ e

/-- Fuel-bounded upward search for the binary exponent: raise `e` while
`2 ^ (e+1)` still does not exceed `q`. -/
def ilogbUp : ℕ → ℚ → ℤ → ℤ
  | 0, _, e => e
  | fuel + 1, q, e => if pow2 (e + 1) ≤ q then ilogbUp fuel q (e + 1) else e

/-- Fuel-bounded downward search for the binary exponent: lower `e` while
`q` is still below `2 ^ e`. -/
def ilogbDown : ℕ → ℚ → ℤ → ℤ
  | 0, _, e => e
  | fuel + 1, q, e => if q < pow2 e then ilogbDown fuel q (e - 1) else e

/-- Binary exponent of a positive rational: the `e` with `2^e ≤ q < 2^(e+1)`
(for `q` within the double exponent range covered by the fuel). -/
def ilogb (q : ℚ) : ℤ :=
  if 1 ≤ q then ilogbUp 1100 q 0 else ilogbDown 1100 q 0

/-- Round a rational to the nearest integer, ties to even. -/
def roundHalfEvenInt (x : ℚ) : ℤ :=
  let f := ⌊x⌋
  let r := x - (f : ℚ)
  if r < 1/2 then f
  else if 1/2 < r then f + 1
  else if f % 2 = 0 then f else f + 1

/-- Round a rational to the nearest IEEE-754 binary64 value (round to
nearest, ties to even; the model covers the normal range — all timestamps
and durations handled by the pipeline are far inside it). This is the
value semantics of every Python float arithmetic result. -/
def flOfRat (q : ℚ) : ℚ :=
  if q = 0 then 0
  else
    let a := |q|
    let e := ilogb a
    let r := (roundHalfEvenInt (a * pow2 (52 - e)) : ℚ) * pow2 (e - 52)
    if q < 0 then -r else r

/-- Python float addition on binary64 operands. -/
def flAdd (a b : ℚ) : ℚ := flOfRat (a + b)

/-- Python float subtraction on binary64 operands. -/
def flSub (a b : ℚ) : ℚ := flOfRat (a - b)

/-- Python float division on binary64 operands. -/
def flDiv (a b : ℚ) : ℚ := flOfRat (a / b)

/-- Python `round(x, 2)` on a binary64 `x`: correctly round the exact value
of `x` to two decimal digits (ties to even), then return the nearest
binary64 to that decimal value. -/
def pyRound2 (x : ℚ) : ℚ :=
  flOfRat ((roundHalfEvenInt (x * 100) : ℚ) / 100)

namespace Aligner

/-- The loop body of `Aligner.find_best_match`: fold over the remaining
turns carrying the current `best_match` and `max_intersection`.
`intersection_start`/`intersection_end` are `max`/`min` of stored floats
(exact selections); `intersection_length = intersection_end -
intersection_start` is a binary64 subtraction, hence `flSub`; both
comparisons compare stored floats exactly. -/
def fbmLoop (s e : ℚ) : List Turn → Option Turn → ℚ → Option Turn
  | [], best, _ => best
  | t :: ts, best, m =>
    let istart := max s t.start
    let iend := min e t.stop
    if istart < iend then
      if m < flSub iend istart then fbmLoop s e ts (some t) (flSub iend istart)
      else fbmLoop s e ts best m
    else fbmLoop s e ts best m

/-- `Aligner.find_best_match(diarization, start_time, end_time)`: scans all
turns, keeping the one with the strictly largest positive intersection with
`[start_time, end_time]`; `best_match` starts as `None` and
`max_intersection` as `0`. -/
def find_best_match (diarization : List Turn) (s e : ℚ) : Option Turn :=
  fbmLoop s e diarization none 0

/-- `Aligner.get_last_segment`: iterates `itersegments()` and
returns the last segment seen, or `None` when there are no segments. -/
def get_last_segment (ann : List Turn) : Option Turn :=
  ann.getLast?

/-- The loop of `Aligner.merge_consecutive_segments` once a first
`previous_segment` is held: merge each following entry into `prev` while
the speaker matches, otherwise retain `prev` and restart from the entry. -/
def mcsGo (prev : SpEntry) : List SpEntry → List SpEntry
  | [] => [prev]
  | s :: rest =>
    if s.speaker = prev.speaker then
      mcsGo ⟨prev.speaker, prev.start, s.stop, prev.text ++ s.text⟩ rest
    else
      prev :: mcsGo s rest

/-- `Aligner.merge_consecutive_segments(segments)`. -/
def merge_consecutive_segments : List SpEntry → List SpEntry
  | [] => []
  | s :: rest => mcsGo s rest

/-- The chunk loop of `Aligner.align`, with `last_diarization_end` already
resolved to the end of the last diarization segment (a float, hence the
`if last_diarization_end is not None` test in the source is always true
and the `None` end of a chunk is replaced by `last_diarization_end`). -/
def alignLoop (lastEnd : ℚ) (diarization : List Turn) : List Chunk → List SpEntry
  | [] => []
  | c :: cs =>
    let ce := match c.stop with
      | some e2 => e2
      | none => lastEnd
    match find_best_match diarization c.start ce with
    | some t => ⟨t.speaker, c.start, ce, c.text⟩ :: alignLoop lastEnd diarization cs
    | none => alignLoop lastEnd diarization cs

/-- `Aligner.align(transcription, timestamps, diarization)` (the
`transcription` argument is unused by the source).  Its first statement is
`last_diarization_end = self.get_last_segment(diarization).end`; on an
empty diarization `get_last_segment` returns `None` and the `.end` access
raises `AttributeError`, embedded as result `none`. -/
def align (timestamps : List Chunk) (diarization : List Turn) :
    Option (List SpEntry) :=
  match get_last_segment diarization with
  | none => none
  | some seg =>
    some (merge_consecutive_segments (alignLoop seg.stop diarization timestamps))

end Aligner

/-- The overlap of a turn with a chunk interval, as written in the
specification: `max(0, min(chunkEnd, turn.end) - max(chunkStart, turn.start))`.
All quantities are Python floats, so the inner subtraction is the binary64
subtraction performed by the source (`flSub`); `min`/`max` select one of
their (stored, exact) operands. -/
def overlap (s e : ℚ) (t : Turn) : ℚ :=
  max 0 (flSub (min e t.stop) (max s t.start))

/-- In-order concatenation of the `text` fields of a list of attributed
entries. -/
def textConcat (l : List SpEntry) : String :=
  l.foldr (fun s acc => s.text ++ acc) ""

/-- One timestamped segment `{"timestamp": [start, end], "text": ...}` as
consumed by `MultiTranscriptionAligner`.  Only `start` is inspected by the
legacy merge; `align_enhanced` also reads `end` (`stop` here) and `text`. -/
structure TSeg where
  start : ℚ
  stop : ℚ
  text : String
deriving DecidableEq, Repr

namespace MultiTranscriptionAligner

/-- `MultiTranscriptionAligner.align(user_timestamps, monitor_timestamps)`:
two-pointer merge comparing head start times with `<=` (user wins ties),
then draining whichever stream remains. -/
def align : List TSeg → List TSeg → List TSeg
  | [], bs => bs
  | as, [] => as
  | a :: as, b :: bs =>
    if a.start ≤ b.start then a :: align as (b :: bs)
    else b :: align (a :: as) bs

end MultiTranscriptionAligner

/-- `cs` is an interleaving of `as` and `bs`: every element of each input
appears exactly once, unmodified, and the relative order of elements coming
from the same input is preserved. -/
inductive Interleave : List TSeg → List TSeg → List TSeg → Prop
  | nil : Interleave [] [] []
  | left {a : TSeg} {as bs cs : List TSeg} :
      Interleave as bs cs → Interleave (a :: as) bs (a :: cs)
  | right {b : TSeg} {as bs cs : List TSeg} :
      Interleave as bs cs → Interleave as (b :: bs) (b :: cs)


/-- One entry of the enhanced `conversation` list, as built by
`MultiTranscriptionAligner.align_enhanced`: speaker role, `start_time`,
`end_time` (`stop` here), `duration = round(end_time - start_time, 2)`,
text, and source channel. -/
structure ConvEntry where
  speaker : String
  start : ℚ
  stop : ℚ
  duration : ℚ
  text : String
  source : String
deriving DecidableEq, Repr

/-- The `summary_hints` object of the enhanced format. -/
structure SummaryHints where
  user_talk_time_seconds : ℚ
  others_talk_time_seconds : ℚ
  silence_gaps : ℕ
  avg_segment_length : ℚ
  total_segments : ℕ
deriving DecidableEq, Repr

/-- The enhanced format returned by `align_enhanced`: the caller-supplied
`session_metadata` dict is passed through shallowly and is opaque to the
algorithm, so only the computed `total_segments` field is modelled. -/
structure EnhancedFormat where
  total_segments : ℕ
  conversation : List ConvEntry
  summary_hints : SummaryHints
deriving DecidableEq, Repr

namespace MultiTranscriptionAligner

/-- The per-segment conversion inside `align_enhanced`: a segment becomes a
conversation entry with the given speaker role and source channel and
`duration = round(end_time - start_time, 2)` (binary64 subtraction, then
Python rounding). -/
def toConv (speaker source : String) (s : TSeg) : ConvEntry :=
  ⟨speaker, s.start, s.stop, pyRound2 (flSub s.stop s.start), s.text, source⟩

/-- Stable insertion into an already sorted-by-`start` list: the new
element goes after every element whose `start` does not exceed its own.
Together with `pySortByStart` this embeds CPython's stable
`list.sort(key=lambda x: x["start_time"])`. -/
def insortByStart (x : ConvEntry) : List ConvEntry → List ConvEntry
  | [] => [x]
  | y :: ys => if y.start ≤ x.start then y :: insortByStart x ys else x :: y :: ys

/-- Stable sort by `start` (model of CPython's stable `list.sort`). -/
def pySortByStart (l : List ConvEntry) : List ConvEntry :=
  l.foldl (fun acc x => insortByStart x acc) []

/-- Python's `sum` over a sequence of floats: left fold of binary64
addition starting from `0`. -/
def flSum (l : List ℚ) : ℚ := l.foldl flAdd 0

/-- The silence-gap loop of `align_enhanced`: for each `i ≥ 1` add one when
`conversation[i].start_time - conversation[i-1].end_time > 1.0` (binary64
subtraction, strict comparison). -/
def silenceGapsCount : List ConvEntry → ℕ
  | a :: b :: rest =>
    (if 1 < flSub b.start a.stop then 1 else 0) + silenceGapsCount (b :: rest)
  | _ => 0

/-- `MultiTranscriptionAligner.align_enhanced(user, monitor, metadata)`:
map the mic segments to `User`/`mic` entries and the monitor segments to
`Others`/`monitor` entries, concatenate, sort stably by `start_time`, then
compute the summary hints over the sorted conversation. -/
def align_enhanced (user monitor : List TSeg) : EnhancedFormat :=
  let conversation :=
    pySortByStart (user.map (toConv "User" "mic")
      ++ monitor.map (toConv "Others" "monitor"))
  let user_talk :=
    flSum ((conversation.filter (fun s => s.speaker == "User")).map ConvEntry.duration)
  let others_talk :=
    flSum ((conversation.filter (fun s => s.speaker == "Others")).map ConvEntry.duration)
  let total := conversation.length
  let avg :=
    if 0 < total then
      pyRound2 (flDiv (flSum (conversation.map ConvEntry.duration)) (total : ℚ))
    else 0
  { total_segments := total
    conversation := conversation
    summary_hints :=
      { user_talk_time_seconds := pyRound2 user_talk
        others_talk_time_seconds := pyRound2 others_talk
        silence_gaps := silenceGapsCount conversation
        avg_segment_length := avg
        total_segments := total } }

end MultiTranscriptionAligner

theorem pow2_pos (e : ℤ) : 0 < pow2 e := zpow_pos (by norm_num) e

theorem pow2_mono {a b : ℤ} (h : a ≤ b) : pow2 a ≤ pow2 b :=
  zpow_le_zpow_right₀ (by norm_num) h

theorem roundHalfEvenInt_nonneg (x : ℚ) (h : 0 ≤ x) :
    0 ≤ roundHalfEvenInt x := by
  have hf : (0 : ℤ) ≤ ⌊x⌋ := Int.floor_nonneg.mpr h
  simp only [roundHalfEvenInt]
  split
  · exact hf
  · split
    · omega
    · split
      · exact hf
      · omega

theorem flOfRat_nonneg (q : ℚ) (h : 0 ≤ q) : 0 ≤ flOfRat q := by
  by_cases hq0 : q = 0
  · simp [flOfRat, hq0]
  · have hqpos : 0 < q := lt_of_le_of_ne h (Ne.symm hq0)
    rw [show flOfRat q
        = (roundHalfEvenInt (|q| * pow2 (52 - ilogb |q|)) : ℚ)
            * pow2 (ilogb |q| - 52) by
      simp [flOfRat, hq0, not_lt.mpr (le_of_lt hqpos)]]
    have h1 : (0 : ℚ) ≤ |q| * pow2 (52 - ilogb |q|) :=
      mul_nonneg (abs_nonneg q) (le_of_lt (pow2_pos _))
    have h2 := roundHalfEvenInt_nonneg _ h1
    exact mul_nonneg (by exact_mod_cast h2) (le_of_lt (pow2_pos _))

theorem flOfRat_nonpos (q : ℚ) (h : q ≤ 0) : flOfRat q ≤ 0 := by
  by_cases hq0 : q = 0
  · simp [flOfRat, hq0]
  · have hqneg : q < 0 := lt_of_le_of_ne h hq0
    rw [show flOfRat q
        = -((roundHalfEvenInt (|q| * pow2 (52 - ilogb |q|)) : ℚ)
            * pow2 (ilogb |q| - 52)) by
      simp [flOfRat, hq0, hqneg]]
    have h1 : (0 : ℚ) ≤ |q| * pow2 (52 - ilogb |q|) :=
      mul_nonneg (abs_nonneg q) (le_of_lt (pow2_pos _))
    have h2 := roundHalfEvenInt_nonneg _ h1
    have h3 : (0 : ℚ) ≤ (roundHalfEvenInt (|q| * pow2 (52 - ilogb |q|)) : ℚ)
        * pow2 (ilogb |q| - 52) :=
      mul_nonneg (by exact_mod_cast h2) (le_of_lt (pow2_pos _))
    linarith

theorem overlap_nonneg (s e : ℚ) (t : Turn) : 0 ≤ overlap s e t :=
  le_max_left 0 _

theorem overlap_eq_flSub_of_nonneg (s e : ℚ) (t : Turn)
    (h : 0 ≤ flSub (min e t.stop) (max s t.start)) :
    overlap s e t = flSub (min e t.stop) (max s t.start) := by
  unfold overlap
  exact max_eq_right h

theorem overlap_le_of_flSub_le (s e m : ℚ) (t : Turn) (hm : 0 ≤ m)
    (h : flSub (min e t.stop) (max s t.start) ≤ m) :
    overlap s e t ≤ m := by
  unfold overlap
  exact max_le hm h

theorem overlap_eq_zero_of_not_lt (s e : ℚ) (t : Turn)
    (h : ¬ max s t.start < min e t.stop) :
    overlap s e t = 0 := by
  unfold overlap
  exact max_eq_left (flOfRat_nonpos _ (sub_nonpos.mpr (not_lt.mp h)))

theorem ilogbUp_spec :
    ∀ (fuel : ℕ) (e : ℤ) (q : ℚ), pow2 e ≤ q → q < pow2 (e + fuel + 1) →
      pow2 (ilogbUp fuel q e) ≤ q ∧ q < pow2 (ilogbUp fuel q e + 1) := by
  intro fuel
  induction fuel with
  | zero =>
    intro e q h1 h2
    refine ⟨h1, ?_⟩
    simpa using h2
  | succ fuel ih =>
    intro e q h1 h2
    by_cases h : pow2 (e + 1) ≤ q
    · rw [show ilogbUp (fuel + 1) q e = ilogbUp fuel q (e + 1) by
          simp [ilogbUp, h]]
      refine ih (e + 1) q h ?_
      have : e + 1 + (fuel : ℤ) + 1 = e + (fuel + 1 : ℕ) + 1 := by push_cast; ring
      rw [this]
      exact h2
    · rw [show ilogbUp (fuel + 1) q e = e by simp [ilogbUp, h]]
      exact ⟨h1, lt_of_not_le h⟩

theorem ilogbDown_stop (fuel : ℕ) (q : ℚ) (e : ℤ) (h : ¬ q < pow2 e) :
    ilogbDown fuel q e = e := by
  cases fuel with
  | zero => rfl
  | succ fuel => simp [ilogbDown, h]

theorem ilogbDown_spec :
    ∀ (fuel : ℕ) (e : ℤ) (q : ℚ), q < pow2 e → pow2 (e - fuel) ≤ q →
      pow2 (ilogbDown fuel q e) ≤ q ∧ q < pow2 (ilogbDown fuel q e + 1) := by
  intro fuel
  induction fuel with
  | zero =>
    intro e q h1 h2
    rw [show e - ((0 : ℕ) : ℤ) = e by simp] at h2
    exact absurd (lt_of_le_of_lt h2 h1) (lt_irrefl (pow2 e))
  | succ fuel ih =>
    intro e q h1 h2
    rw [show ilogbDown (fuel + 1) q e = ilogbDown fuel q (e - 1) by
        simp [ilogbDown, h1]]
    by_cases h : q < pow2 (e - 1)
    · refine ih (e - 1) q h ?_
      have : e - 1 - (fuel : ℤ) = e - (fuel + 1 : ℕ) := by push_cast; ring
      rw [this]
      exact h2
    · rw [ilogbDown_stop fuel q (e - 1) h]
      refine ⟨le_of_not_lt h, ?_⟩
      rw [show e - 1 + 1 = e by ring]
      exact h1

theorem ilogb_spec (q : ℚ) (hlo : pow2 (-1100) ≤ q) (hhi : q < pow2 1100) :
    pow2 (ilogb q) ≤ q ∧ q < pow2 (ilogb q + 1) := by
  unfold ilogb
  by_cases h : 1 ≤ q
  · rw [if_pos h]
    refine ilogbUp_spec 1100 0 q (by simpa [pow2] using h) ?_
    exact lt_of_lt_of_le hhi (pow2_mono (by norm_num))
  · rw [if_neg h]
    refine ilogbDown_spec 1100 0 q ?_ ?_
    · simpa [pow2] using lt_of_not_le h
    · simpa using hlo

theorem ilogb_unique (q : ℚ) (e : ℤ)
    (h1 : pow2 e ≤ q) (h2 : q < pow2 (e + 1))
    (hlo : -1100 ≤ e) (hhi : e + 1 ≤ 1100) :
    ilogb q = e := by
  obtain ⟨g1, g2⟩ := ilogb_spec q
    (le_trans (pow2_mono hlo) h1)
    (lt_of_lt_of_le h2 (pow2_mono hhi))
  by_contra hne
  rcases lt_or_gt_of_ne hne with hlt | hgt
  · have : ilogb q + 1 ≤ e := hlt
    exact absurd (lt_of_lt_of_le g2 (le_trans (pow2_mono this) h1))
      (lt_irrefl q)
  · have : e + 1 ≤ ilogb q := hgt
    exact absurd (lt_of_lt_of_le h2 (le_trans (pow2_mono this) g1))
      (lt_irrefl q)

theorem flOfRat_eval_pos (q : ℚ) (e : ℤ) (hq : 0 < q)
    (h1 : pow2 e ≤ q) (h2 : q < pow2 (e + 1))
    (hlo : -1100 ≤ e) (hhi : e + 1 ≤ 1100) :
    flOfRat q = (roundHalfEvenInt (q * pow2 (52 - e)) : ℚ) * pow2 (e - 52) := by
  unfold flOfRat
  simp only [if_neg (ne_of_gt hq), abs_of_pos hq,
    ilogb_unique q e h1 h2 hlo hhi, if_neg (not_lt.mpr (le_of_lt hq))]

theorem fl_val_one : flOfRat 1 = 1 := by
  rw [flOfRat_eval_pos 1 0 (by norm_num) (by norm_num [pow2])
    (by norm_num [pow2]) (by norm_num) (by norm_num)]
  norm_num [roundHalfEvenInt, pow2]

theorem fl_val_two : flOfRat 2 = 2 := by
  rw [flOfRat_eval_pos 2 1 (by norm_num) (by norm_num [pow2])
    (by norm_num [pow2]) (by norm_num) (by norm_num)]
  norm_num [roundHalfEvenInt, pow2]

theorem fl_val_three : flOfRat 3 = 3 := by
  rw [flOfRat_eval_pos 3 1 (by norm_num) (by norm_num [pow2])
    (by norm_num [pow2]) (by norm_num) (by norm_num)]
  norm_num [roundHalfEvenInt, pow2]

theorem flSub_two_one : flSub 2 1 = 1 := by
  unfold flSub
  rw [show (2 : ℚ) - 1 = 1 by norm_num]
  exact fl_val_one

theorem flSub_four_one : flSub 4 1 = 3 := by
  unfold flSub
  rw [show (4 : ℚ) - 1 = 3 by norm_num]
  exact fl_val_three

theorem flSub_five_three : flSub 5 3 = 2 := by
  unfold flSub
  rw [show (5 : ℚ) - 3 = 2 by norm_num]
  exact fl_val_two

theorem fbmLoop_none_iff (s e : ℚ) :
    ∀ (ts : List Turn) (best : Option Turn) (m : ℚ), 0 ≤ m →
      (Aligner.fbmLoop s e ts best m = none ↔
        best = none ∧ ∀ t ∈ ts, overlap s e t ≤ m) := by
  intro ts
  induction ts with
  | nil =>
    intro best m _
    simp [Aligner.fbmLoop]
  | cons t ts ih =>
    intro best m hm
    by_cases h1 : max s t.start < min e t.stop
    · by_cases h2 : m < flSub (min e t.stop) (max s t.start)
      · have hpos : (0 : ℚ) ≤ flSub (min e t.stop) (max s t.start) :=
          le_trans hm (le_of_lt h2)
        rw [show Aligner.fbmLoop s e (t :: ts) best m
              = Aligner.fbmLoop s e ts (some t) (flSub (min e t.stop) (max s t.start)) by
            simp [Aligner.fbmLoop, h1, h2]]
        rw [ih (some t) _ hpos]
        constructor
        · rintro ⟨h, -⟩; exact absurd h (by simp)
        · rintro ⟨-, hall⟩
          have := hall t (by simp)
          rw [overlap_eq_flSub_of_nonneg s e t hpos] at this
          exact absurd (lt_of_lt_of_le h2 this) (lt_irrefl m)
      · rw [show Aligner.fbmLoop s e (t :: ts) best m
              = Aligner.fbmLoop s e ts best m by simp [Aligner.fbmLoop, h1, h2]]
        rw [ih best m hm]
        have hov : overlap s e t ≤ m :=
          overlap_le_of_flSub_le s e m t hm (le_of_not_lt h2)
        constructor
        · rintro ⟨hb, hall⟩
          refine ⟨hb, ?_⟩
          intro u hu
          rcases List.mem_cons.mp hu with h | h
          · subst h; exact hov
          · exact hall u h
        · rintro ⟨hb, hall⟩
          exact ⟨hb, fun u hu => hall u (List.mem_cons_of_mem t hu)⟩
    · rw [show Aligner.fbmLoop s e (t :: ts) best m
            = Aligner.fbmLoop s e ts best m by simp [Aligner.fbmLoop, h1]]
      rw [ih best m hm]
      have hov : overlap s e t ≤ m := by
        rw [overlap_eq_zero_of_not_lt s e t h1]; exact hm
      constructor
      · rintro ⟨hb, hall⟩
        refine ⟨hb, ?_⟩
        intro u hu
        rcases List.mem_cons.mp hu with h | h
        · subst h; exact hov
        · exact hall u h
      · rintro ⟨hb, hall⟩
        exact ⟨hb, fun u hu => hall u (List.mem_cons_of_mem t hu)⟩

theorem fbmLoop_some (s e : ℚ) :
    ∀ (ts : List Turn) (best : Option Turn) (m : ℚ) (u : Turn), 0 ≤ m →
      Aligner.fbmLoop s e ts best m = some u →
      (best = some u ∧ ∀ v ∈ ts, overlap s e v ≤ m) ∨
      (m < overlap s e u ∧ ∃ l1 l2, ts = l1 ++ u :: l2 ∧
        (∀ v ∈ l1, overlap s e v < overlap s e u) ∧
        (∀ v ∈ l2, overlap s e v ≤ overlap s e u)) := by
  intro ts
  induction ts with
  | nil =>
    intro best m u _ h
    left
    constructor
    · simpa [Aligner.fbmLoop] using h
    · intro v hv; exact absurd hv (List.not_mem_nil v)
  | cons t ts ih =>
    intro best m u hm h
    by_cases h1 : max s t.start < min e t.stop
    · by_cases h2 : m < flSub (min e t.stop) (max s t.start)
      · -- update branch: the new best is t, with the rounded length
        have hpos : (0 : ℚ) ≤ flSub (min e t.stop) (max s t.start) :=
          le_trans hm (le_of_lt h2)
        have hov : overlap s e t = flSub (min e t.stop) (max s t.start) :=
          overlap_eq_flSub_of_nonneg s e t hpos
        rw [show Aligner.fbmLoop s e (t :: ts) best m
              = Aligner.fbmLoop s e ts (some t) (flSub (min e t.stop) (max s t.start)) by
            simp [Aligner.fbmLoop, h1, h2]] at h
        rcases ih (some t) _ u hpos h with ⟨hb, hall⟩ | ⟨hlt, l1, l2, hdec, hl1, hl2⟩
        · -- t itself stays best to the end
          have htu : t = u := by simpa using hb
          subst htu
          right
          refine ⟨by rw [hov]; exact h2, [], ts, by simp, ?_, ?_⟩
          · intro v hv; exact absurd hv (List.not_mem_nil v)
          · intro v hv
            have := hall v hv
            rw [hov]; exact this
        · -- a later turn u beat t
          right
          have htu : overlap s e t < overlap s e u := by
            rw [hov]; exact hlt
          refine ⟨lt_trans h2 (by rw [← hov]; exact htu), t :: l1, l2, by rw [hdec]; rfl, ?_, hl2⟩
          intro v hv
          rcases List.mem_cons.mp hv with h | h
          · subst h; exact htu
          · exact hl1 v h
      · -- intersection positive but not better than the current maximum
        have hov : overlap s e t ≤ m :=
          overlap_le_of_flSub_le s e m t hm (le_of_not_lt h2)
        rw [show Aligner.fbmLoop s e (t :: ts) best m
              = Aligner.fbmLoop s e ts best m by simp [Aligner.fbmLoop, h1, h2]] at h
        rcases ih best m u hm h with ⟨hb, hall⟩ | ⟨hlt, l1, l2, hdec, hl1, hl2⟩
        · left
          refine ⟨hb, ?_⟩
          intro v hv
          rcases List.mem_cons.mp hv with hve | hve
          · subst hve; exact hov
          · exact hall v hve
        · right
          refine ⟨hlt, t :: l1, l2, by rw [hdec]; rfl, ?_, hl2⟩
          intro v hv
          rcases List.mem_cons.mp hv with hve | hve
          · subst hve; exact lt_of_le_of_lt hov hlt
          · exact hl1 v hve
    · -- empty intersection: overlap is 0
      have hov : overlap s e t ≤ m := by
        rw [overlap_eq_zero_of_not_lt s e t h1]; exact hm
      rw [show Aligner.fbmLoop s e (t :: ts) best m
            = Aligner.fbmLoop s e ts best m by simp [Aligner.fbmLoop, h1]] at h
      rcases ih best m u hm h with ⟨hb, hall⟩ | ⟨hlt, l1, l2, hdec, hl1, hl2⟩
      · left
        refine ⟨hb, ?_⟩
        intro v hv
        rcases List.mem_cons.mp hv with hve | hve
        · subst hve; exact hov
        · exact hall v hve
      · right
        refine ⟨hlt, t :: l1, l2, by rw [hdec]; rfl, ?_, hl2⟩
        intro v hv
        rcases List.mem_cons.mp hv with hve | hve
        · subst hve; exact lt_of_le_of_lt hov hlt
        · exact hl1 v hve

/-- C1: `find_best_match` returns `none` exactly when no turn has positive
overlap `max(0, min(chunkEnd, turn.end) - max(chunkStart, turn.start))`
with the chunk; and when it returns a turn, that turn has strictly positive
overlap, its overlap is maximal among all turns, and it is the first turn
in input iteration order attaining that maximum (every earlier turn has
strictly smaller overlap, every later turn has overlap at most as large). -/
theorem find_best_match_spec (d : List Turn) (s e : ℚ) :
    (Aligner.find_best_match d s e = none ↔ ∀ t ∈ d, overlap s e t ≤ 0) ∧
    (∀ t, Aligner.find_best_match d s e = some t →
      0 < overlap s e t ∧ ∃ l1 l2, d = l1 ++ t :: l2 ∧
        (∀ u ∈ l1, overlap s e u < overlap s e t) ∧
        (∀ u ∈ l2, overlap s e u ≤ overlap s e t)) := by
  constructor
  · have := fbmLoop_none_iff s e d none 0 (le_refl 0)
    unfold Aligner.find_best_match
    rw [this]
    simp
  · intro t ht
    unfold Aligner.find_best_match at ht
    rcases fbmLoop_some s e d none 0 t (le_refl 0) ht with ⟨hb, -⟩ | ⟨hlt, hrest⟩
    · exact absurd hb (by simp)
    · exact ⟨hlt, hrest⟩

/-- Witness for C1 at a concrete input: among the turns
`[0,2] @ A, [1,4] @ B, [3,6] @ C` and the chunk `[1, 5]`, the best match is
the `B` turn (overlap 3), which is strictly positive, maximal, strictly
beats the one turn before it, and is at least as good as the one after. -/
theorem find_best_match_spec_witness :
    0 < overlap 1 5 ⟨1, 4, "B"⟩ ∧
    ∃ l1 l2, [Turn.mk 0 2 "A", Turn.mk 1 4 "B", Turn.mk 3 6 "C"]
        = l1 ++ Turn.mk 1 4 "B" :: l2 ∧
      (∀ u ∈ l1, overlap 1 5 u < overlap 1 5 ⟨1, 4, "B"⟩) ∧
      (∀ u ∈ l2, overlap 1 5 u ≤ overlap 1 5 ⟨1, 4, "B"⟩) :=
  (find_best_match_spec [⟨0, 2, "A"⟩, ⟨1, 4, "B"⟩, ⟨3, 6, "C"⟩] 1 5).2
    ⟨1, 4, "B"⟩ (by norm_num [Aligner.find_best_match, Aligner.fbmLoop,
      flSub_two_one, flSub_four_one, flSub_five_three])

theorem mcsGo_cons (rest : List SpEntry) :
    ∀ prev, ∃ e tail, Aligner.mcsGo prev rest = e :: tail ∧ e.speaker = prev.speaker := by
  induction rest with
  | nil =>
    intro prev
    exact ⟨prev, [], rfl, rfl⟩
  | cons t ts ih =>
    intro prev
    by_cases h : t.speaker = prev.speaker
    · obtain ⟨e, tail, heq, hsp⟩ := ih ⟨prev.speaker, prev.start, t.stop, prev.text ++ t.text⟩
      exact ⟨e, tail, by simp [Aligner.mcsGo, h, heq], hsp⟩
    · exact ⟨prev, Aligner.mcsGo t ts, by simp [Aligner.mcsGo, h], rfl⟩

theorem mcsGo_chain' (rest : List SpEntry) :
    ∀ prev, List.Chain' (fun a b => a.speaker ≠ b.speaker) (Aligner.mcsGo prev rest) := by
  induction rest with
  | nil =>
    intro prev
    simp [Aligner.mcsGo]
  | cons t ts ih =>
    intro prev
    by_cases h : t.speaker = prev.speaker
    · rw [show Aligner.mcsGo prev (t :: ts)
            = Aligner.mcsGo ⟨prev.speaker, prev.start, t.stop, prev.text ++ t.text⟩ ts by
          simp [Aligner.mcsGo, h]]
      exact ih _
    · rw [show Aligner.mcsGo prev (t :: ts) = prev :: Aligner.mcsGo t ts by
          simp [Aligner.mcsGo, h]]
      obtain ⟨e, tail, heq, hsp⟩ := mcsGo_cons ts t
      rw [heq]
      refine List.Chain'.cons ?_ (by rw [← heq]; exact ih t)
      rw [hsp]
      exact fun hc => h hc.symm

theorem mcsGo_fixed (rest : List SpEntry) :
    ∀ prev, List.Chain' (fun a b => a.speaker ≠ b.speaker) (prev :: rest) →
      Aligner.mcsGo prev rest = prev :: rest := by
  induction rest with
  | nil =>
    intro prev _
    rfl
  | cons t ts ih =>
    intro prev hch
    have hne : prev.speaker ≠ t.speaker := (List.chain'_cons.mp hch).1
    have hne2 : t.speaker ≠ prev.speaker := fun hc => hne hc.symm
    rw [show Aligner.mcsGo prev (t :: ts) = prev :: Aligner.mcsGo t ts by
        simp [Aligner.mcsGo, hne2]]
    rw [ih t (List.chain'_cons.mp hch).2]

theorem mcsGo_all_same (rest : List SpEntry) :
    ∀ prev c, prev.speaker = c → (∀ x ∈ rest, x.speaker = c) →
      ∃ e, Aligner.mcsGo prev rest = [e] := by
  induction rest with
  | nil =>
    intro prev _ _ _
    exact ⟨prev, rfl⟩
  | cons t ts ih =>
    intro prev c hp hall
    have ht : t.speaker = prev.speaker := by
      rw [hp]; exact hall t (by simp)
    rw [show Aligner.mcsGo prev (t :: ts)
          = Aligner.mcsGo ⟨prev.speaker, prev.start, t.stop, prev.text ++ t.text⟩ ts by
        simp [Aligner.mcsGo, ht]]
    exact ih _ c hp (fun x hx => hall x (List.mem_cons_of_mem t hx))

/-- C5: `merge_consecutive_segments` is a single left-to-right pass: on
empty input it yields empty output and a single entry is returned
unchanged; when the two leading entries share a speaker they are merged
into one entry keeping the earlier `start`, taking the later `end`, and
concatenating the texts, and the pass continues with the merged entry in
place of the pair; when the speakers differ the first entry is retained
and the pass restarts from the second; and an all-same-speaker input
collapses to exactly one entry. -/
theorem merge_consecutive_segments_spec :
    (Aligner.merge_consecutive_segments ([] : List SpEntry) = []) ∧
    (∀ s : SpEntry, Aligner.merge_consecutive_segments [s] = [s]) ∧
    (∀ (s t : SpEntry) (rest : List SpEntry), s.speaker = t.speaker →
      Aligner.merge_consecutive_segments (s :: t :: rest)
        = Aligner.merge_consecutive_segments
            (⟨s.speaker, s.start, t.stop, s.text ++ t.text⟩ :: rest)) ∧
    (∀ (s t : SpEntry) (rest : List SpEntry), s.speaker ≠ t.speaker →
      Aligner.merge_consecutive_segments (s :: t :: rest)
        = s :: Aligner.merge_consecutive_segments (t :: rest)) ∧
    (∀ (c : String) (segs : List SpEntry), segs ≠ [] →
      (∀ x ∈ segs, x.speaker = c) →
      ∃ e, Aligner.merge_consecutive_segments segs = [e]) := by
  refine ⟨rfl, fun s => rfl, ?_, ?_, ?_⟩
  · intro s t rest h
    show Aligner.mcsGo s (t :: rest) = _
    rw [show Aligner.mcsGo s (t :: rest)
          = Aligner.mcsGo ⟨s.speaker, s.start, t.stop, s.text ++ t.text⟩ rest by
        simp [Aligner.mcsGo, h.symm]]
    rfl
  · intro s t rest h
    have hne2 : t.speaker ≠ s.speaker := fun hc => h hc.symm
    show Aligner.mcsGo s (t :: rest) = _
    rw [show Aligner.mcsGo s (t :: rest) = s :: Aligner.mcsGo t rest by
        simp [Aligner.mcsGo, hne2]]
    rfl
  · intro c segs hne hall
    match segs, hne with
    | s :: rest, _ =>
      exact mcsGo_all_same rest s c (hall s (by simp))
        (fun x hx => hall x (List.mem_cons_of_mem s hx))

/-- Witness for C5 at concrete inputs: two consecutive `A` entries merge
into one (start from the first, end from the second, texts concatenated),
and an all-`A` input collapses to a single entry. -/
theorem merge_consecutive_segments_spec_witness :
    (Aligner.merge_consecutive_segments
        [⟨"A", 0, 1, "x"⟩, ⟨"A", 1, 2, "y"⟩, ⟨"B", 2, 3, "z"⟩]
      = Aligner.merge_consecutive_segments
        [⟨"A", 0, 2, "x" ++ "y"⟩, ⟨"B", 2, 3, "z"⟩]) ∧
    (∃ e, Aligner.merge_consecutive_segments
        [SpEntry.mk "A" 0 1 "x", SpEntry.mk "A" 1 2 "y"] = [e]) :=
  ⟨merge_consecutive_segments_spec.2.2.1 ⟨"A", 0, 1, "x"⟩ ⟨"A", 1, 2, "y"⟩
      [⟨"B", 2, 3, "z"⟩] rfl,
    merge_consecutive_segments_spec.2.2.2.2 "A"
      [⟨"A", 0, 1, "x"⟩, ⟨"A", 1, 2, "y"⟩] (by simp) (by simp)⟩

/-- C9: compaction is idempotent — running `merge_consecutive_segments` on
its own output returns that output unchanged. -/
theorem merge_consecutive_segments_idempotent (l : List SpEntry) :
    Aligner.merge_consecutive_segments (Aligner.merge_consecutive_segments l)
      = Aligner.merge_consecutive_segments l := by
  match l with
  | [] => rfl
  | s :: rest =>
    show Aligner.merge_consecutive_segments (Aligner.mcsGo s rest) = Aligner.mcsGo s rest
    obtain ⟨e, tail, heq, -⟩ := mcsGo_cons rest s
    have hch := mcsGo_chain' rest s
    rw [heq] at hch ⊢
    show Aligner.mcsGo e tail = e :: tail
    exact mcsGo_fixed tail e hch

theorem textConcat_mcsGo (rest : List SpEntry) :
    ∀ prev, textConcat (Aligner.mcsGo prev rest) = prev.text ++ textConcat rest := by
  induction rest with
  | nil =>
    intro prev
    simp [Aligner.mcsGo, textConcat]
  | cons t ts ih =>
    intro prev
    by_cases h : t.speaker = prev.speaker
    · rw [show Aligner.mcsGo prev (t :: ts)
            = Aligner.mcsGo ⟨prev.speaker, prev.start, t.stop, prev.text ++ t.text⟩ ts by
          simp [Aligner.mcsGo, h]]
      rw [ih]
      show (prev.text ++ t.text) ++ textConcat ts = prev.text ++ textConcat (t :: ts)
      rw [String.append_assoc]
      rfl
    · rw [show Aligner.mcsGo prev (t :: ts) = prev :: Aligner.mcsGo t ts by
          simp [Aligner.mcsGo, h]]
      show prev.text ++ textConcat (Aligner.mcsGo t ts) = _
      rw [ih]
      rfl

/-- C10: compaction preserves all text — the in-order concatenation of the
output texts equals the in-order concatenation of the input texts. -/
theorem merge_consecutive_segments_textConcat (l : List SpEntry) :
    textConcat (Aligner.merge_consecutive_segments l) = textConcat l := by
  match l with
  | [] => rfl
  | s :: rest =>
    show textConcat (Aligner.mcsGo s rest) = textConcat (s :: rest)
    rw [textConcat_mcsGo]
    rfl

theorem interleave_nil_left (bs : List TSeg) : Interleave [] bs bs := by
  induction bs with
  | nil => exact Interleave.nil
  | cons b bs ih => exact Interleave.right ih

theorem interleave_nil_right (as : List TSeg) : Interleave as [] as := by
  induction as with
  | nil => exact Interleave.nil
  | cons a as ih => exact Interleave.left ih

theorem align_nil_left (bs : List TSeg) :
    MultiTranscriptionAligner.align [] bs = bs := by
  cases bs <;> simp [MultiTranscriptionAligner.align]

theorem align_nil_right (as : List TSeg) :
    MultiTranscriptionAligner.align as [] = as := by
  cases as <;> simp [MultiTranscriptionAligner.align]

theorem align_interleave_aux (as : List TSeg) :
    ∀ bs, Interleave as bs (MultiTranscriptionAligner.align as bs) := by
  induction as with
  | nil =>
    intro bs
    rw [align_nil_left]
    exact interleave_nil_left bs
  | cons a as iha =>
    intro bs
    induction bs with
    | nil =>
      rw [align_nil_right]
      exact interleave_nil_right (a :: as)
    | cons b bs ihb =>
      by_cases h : a.start ≤ b.start
      · rw [show MultiTranscriptionAligner.align (a :: as) (b :: bs)
              = a :: MultiTranscriptionAligner.align as (b :: bs) by
            simp [MultiTranscriptionAligner.align, h]]
        exact Interleave.left (iha (b :: bs))
      · rw [show MultiTranscriptionAligner.align (a :: as) (b :: bs)
              = b :: MultiTranscriptionAligner.align (a :: as) bs by
            simp [MultiTranscriptionAligner.align, h]]
        exact Interleave.right ihb

/-- C3: the legacy merge is a permutation-preserving interleave of its two
inputs — every element of each input appears exactly once, unmodified,
with same-source relative order preserved — and when either input is empty
the other is returned unchanged. -/
theorem align_merge_interleave (as bs : List TSeg) :
    Interleave as bs (MultiTranscriptionAligner.align as bs) ∧
    MultiTranscriptionAligner.align [] bs = bs ∧
    MultiTranscriptionAligner.align as [] = as :=
  ⟨align_interleave_aux as bs, align_nil_left bs, align_nil_right as⟩

/-- C4: when the heads of the two streams start at the same time, the
user-stream head is emitted first. -/
theorem align_merge_tie (a b : TSeg) (as bs : List TSeg)
    (h : a.start = b.start) :
    MultiTranscriptionAligner.align (a :: as) (b :: bs)
      = a :: MultiTranscriptionAligner.align as (b :: bs) := by
  simp [MultiTranscriptionAligner.align, le_of_eq h]

/-- Witness for C4: `merge([{start:5}], [{start:5}])` returns the first
argument's element before the second argument's. -/
theorem align_merge_tie_witness :
    MultiTranscriptionAligner.align [⟨5, 6, "u"⟩] [⟨5, 7, "m"⟩]
      = [⟨5, 6, "u"⟩, ⟨5, 7, "m"⟩] := by
  rw [align_merge_tie ⟨5, 6, "u"⟩ ⟨5, 7, "m"⟩ [] [] rfl, align_nil_left]


theorem mem_insort (x : ConvEntry) :
    ∀ (acc : List ConvEntry) (z : ConvEntry),
      z ∈ MultiTranscriptionAligner.insortByStart x acc → z = x ∨ z ∈ acc := by
  intro acc
  induction acc with
  | nil =>
    intro z hz
    left
    simpa [MultiTranscriptionAligner.insortByStart] using hz
  | cons y ys ih =>
    intro z hz
    by_cases h : y.start ≤ x.start
    · rw [show MultiTranscriptionAligner.insortByStart x (y :: ys)
            = y :: MultiTranscriptionAligner.insortByStart x ys by
          simp [MultiTranscriptionAligner.insortByStart, h]] at hz
      rcases List.mem_cons.mp hz with hz | hz
      · right; simp [hz]
      · rcases ih z hz with hz | hz
        · left; exact hz
        · right; exact List.mem_cons_of_mem y hz
    · rw [show MultiTranscriptionAligner.insortByStart x (y :: ys)
            = x :: y :: ys by simp [MultiTranscriptionAligner.insortByStart, h]] at hz
      rcases List.mem_cons.mp hz with hz | hz
      · left; exact hz
      · right; exact hz

theorem pairwise_insort (x : ConvEntry) :
    ∀ acc : List ConvEntry,
      List.Pairwise (fun a b => a.start ≤ b.start) acc →
      List.Pairwise (fun a b => a.start ≤ b.start)
        (MultiTranscriptionAligner.insortByStart x acc) := by
  intro acc
  induction acc with
  | nil =>
    intro _
    simp [MultiTranscriptionAligner.insortByStart]
  | cons y ys ih =>
    intro hp
    rw [List.pairwise_cons] at hp
    by_cases h : y.start ≤ x.start
    · rw [show MultiTranscriptionAligner.insortByStart x (y :: ys)
            = y :: MultiTranscriptionAligner.insortByStart x ys by
          simp [MultiTranscriptionAligner.insortByStart, h]]
      rw [List.pairwise_cons]
      refine ⟨?_, ih hp.2⟩
      intro z hz
      rcases mem_insort x ys z hz with hz | hz
      · rw [hz]; exact h
      · exact hp.1 z hz
    · rw [show MultiTranscriptionAligner.insortByStart x (y :: ys)
            = x :: y :: ys by simp [MultiTranscriptionAligner.insortByStart, h]]
      rw [List.pairwise_cons]
      have hxy : x.start ≤ y.start := le_of_lt (lt_of_not_le h)
      refine ⟨?_, List.pairwise_cons.mpr hp⟩
      intro z hz
      rcases List.mem_cons.mp hz with hz | hz
      · rw [hz]; exact hxy
      · exact le_trans hxy (hp.1 z hz)

theorem pairwise_pySortAux :
    ∀ (l acc : List ConvEntry),
      List.Pairwise (fun a b => a.start ≤ b.start) acc →
      List.Pairwise (fun a b => a.start ≤ b.start)
        (l.foldl (fun acc x => MultiTranscriptionAligner.insortByStart x acc) acc) := by
  intro l
  induction l with
  | nil =>
    intro acc h
    simpa using h
  | cons x xs ih =>
    intro acc h
    rw [List.foldl_cons]
    exact ih _ (pairwise_insort x acc h)

theorem filter_insort (k : ℚ) (x : ConvEntry) :
    ∀ acc : List ConvEntry,
      List.Pairwise (fun a b => a.start ≤ b.start) acc →
      (MultiTranscriptionAligner.insortByStart x acc).filter
          (fun z => decide (z.start = k))
        = acc.filter (fun z => decide (z.start = k))
            ++ (if x.start = k then [x] else []) := by
  intro acc
  induction acc with
  | nil =>
    intro _
    by_cases hx : x.start = k <;>
      simp [MultiTranscriptionAligner.insortByStart, List.filter, hx]
  | cons y ys ih =>
    intro hp
    rw [List.pairwise_cons] at hp
    by_cases h : y.start ≤ x.start
    · rw [show MultiTranscriptionAligner.insortByStart x (y :: ys)
            = y :: MultiTranscriptionAligner.insortByStart x ys by
          simp [MultiTranscriptionAligner.insortByStart, h]]
      by_cases hy : y.start = k
      · have hyb : (fun z : ConvEntry => decide (z.start = k)) y = true := by
          simp [hy]
        rw [List.filter_cons, if_pos hyb, List.filter_cons, if_pos hyb, ih hp.2]
        simp
      · have hyb : ¬ (fun z : ConvEntry => decide (z.start = k)) y = true := by
          simp [hy]
        rw [List.filter_cons, if_neg hyb, List.filter_cons, if_neg hyb]
        exact ih hp.2
    · rw [show MultiTranscriptionAligner.insortByStart x (y :: ys)
            = x :: y :: ys by simp [MultiTranscriptionAligner.insortByStart, h]]
      have hgt : ∀ z ∈ y :: ys, k < z.start → True := fun _ _ _ => trivial
      by_cases hx : x.start = k
      · have hnil : (y :: ys).filter (fun z => decide (z.start = k)) = [] := by
          rw [List.filter_eq_nil_iff]
          intro z hz
          have hz2 : x.start < z.start := by
            rcases List.mem_cons.mp hz with hz | hz
            · rw [hz]; exact lt_of_not_le h
            · exact lt_of_lt_of_le (lt_of_not_le h) (hp.1 z hz)
          simp only [decide_eq_true_eq]
          rw [← hx]
          exact ne_of_gt hz2
        rw [List.filter_cons, hnil]
        simp [hx]
      · rw [List.filter_cons]
        simp [hx]

theorem filter_pySortAux (k : ℚ) :
    ∀ (l acc : List ConvEntry),
      List.Pairwise (fun a b => a.start ≤ b.start) acc →
      ((l.foldl (fun acc x => MultiTranscriptionAligner.insortByStart x acc) acc).filter
          (fun z => decide (z.start = k)))
        = acc.filter (fun z => decide (z.start = k))
            ++ l.filter (fun z => decide (z.start = k)) := by
  intro l
  induction l with
  | nil =>
    intro acc _
    simp
  | cons x xs ih =>
    intro acc h
    rw [List.foldl_cons, ih _ (pairwise_insort x acc h), filter_insort k x acc h]
    by_cases hx : x.start = k <;>
      simp [List.filter_cons, hx]

/-- C6: for all inputs, the `conversation` produced by `align_enhanced` is
sorted non-decreasing by start time, and the entries with any given start
time appear in exactly the order they have in the concatenation of the two
mapped input lists (the sort is stable), so output is deterministic on
duplicate start times. -/
theorem align_enhanced_sorted_stable (user monitor : List TSeg) :
    List.Chain' (fun a b => a.start ≤ b.start)
      (MultiTranscriptionAligner.align_enhanced user monitor).conversation ∧
    ∀ k : ℚ,
      ((MultiTranscriptionAligner.align_enhanced user monitor).conversation.filter
          (fun z => decide (z.start = k)))
        = ((user.map (MultiTranscriptionAligner.toConv "User" "mic")
            ++ monitor.map (MultiTranscriptionAligner.toConv "Others" "monitor")).filter
            (fun z => decide (z.start = k))) := by
  have hconv : (MultiTranscriptionAligner.align_enhanced user monitor).conversation
      = MultiTranscriptionAligner.pySortByStart
          (user.map (MultiTranscriptionAligner.toConv "User" "mic")
            ++ monitor.map (MultiTranscriptionAligner.toConv "Others" "monitor")) := rfl
  rw [hconv]
  constructor
  · exact List.Pairwise.chain'
      (pairwise_pySortAux _ [] (by simp))
  · intro k
    have := filter_pySortAux k
      (user.map (MultiTranscriptionAligner.toConv "User" "mic")
        ++ monitor.map (MultiTranscriptionAligner.toConv "Others" "monitor")) [] (by simp)
    simpa [MultiTranscriptionAligner.pySortByStart] using this

theorem silenceGapsCount_eq_countP (l : List ConvEntry) :
    MultiTranscriptionAligner.silenceGapsCount l
      = (l.zip l.tail).countP (fun p => decide (1 < flSub p.2.start p.1.stop)) := by
  induction l with
  | nil => rfl
  | cons a t ih =>
    cases t with
    | nil => rfl
    | cons b rest =>
      rw [show MultiTranscriptionAligner.silenceGapsCount (a :: b :: rest)
            = (if 1 < flSub b.start a.stop then 1 else 0)
              + MultiTranscriptionAligner.silenceGapsCount (b :: rest) by
          simp [MultiTranscriptionAligner.silenceGapsCount]]
      rw [ih]
      rw [show (a :: b :: rest).zip ((a :: b :: rest).tail)
            = (a, b) :: ((b :: rest).zip ((b :: rest).tail)) by simp]
      rw [List.countP_cons]
      by_cases h : 1 < flSub b.start a.stop <;>
        simp [h, Nat.add_comm]

/-- C7: the `silence_gaps` hint computed by `align_enhanced` equals the
number of adjacent pairs in the chronologically sorted conversation whose
gap `conversation[i].start_time - conversation[i-1].end_time` is strictly
greater than `1.0` second, scanned over the full order regardless of
speaker — a gap of exactly `1.0` or a zero/negative gap fails the strict
test and is not counted. -/
theorem align_enhanced_silence_gaps (user monitor : List TSeg) :
    (MultiTranscriptionAligner.align_enhanced user monitor).summary_hints.silence_gaps
      = (((MultiTranscriptionAligner.align_enhanced user monitor).conversation.zip
          (MultiTranscriptionAligner.align_enhanced user monitor).conversation.tail).countP
          (fun p => decide (1 < flSub p.2.start p.1.stop))) := by
  have h : (MultiTranscriptionAligner.align_enhanced user monitor).summary_hints.silence_gaps
      = MultiTranscriptionAligner.silenceGapsCount
          (MultiTranscriptionAligner.align_enhanced user monitor).conversation := rfl
  rw [h, silenceGapsCount_eq_countP]

theorem fl_val_0333 :
    flOfRat (333 / 1000) = 5998794703657501 / 18014398509481984 := by
  rw [flOfRat_eval_pos (333 / 1000) (-2) (by norm_num)
    (by norm_num [pow2]) (by norm_num [pow2]) (by norm_num) (by norm_num)]
  norm_num [roundHalfEvenInt, pow2]

theorem fl_val_2678 :
    flOfRat (2678 / 1000) = 3015159950524547 / 1125899906842624 := by
  rw [flOfRat_eval_pos (2678 / 1000) 1 (by norm_num)
    (by norm_num [pow2]) (by norm_num [pow2]) (by norm_num) (by norm_num)]
  norm_num [roundHalfEvenInt, pow2]

theorem fl_val_diff :
    flSub (3015159950524547 / 1125899906842624)
        (5998794703657501 / 18014398509481984)
      = 2640235281545953 / 1125899906842624 := by
  unfold flSub
  rw [show (3015159950524547 / 1125899906842624
        - 5998794703657501 / 18014398509481984 : ℚ)
      = 42243764504735251 / 18014398509481984 by norm_num]
  rw [flOfRat_eval_pos (42243764504735251 / 18014398509481984) 1 (by norm_num)
    (by norm_num [pow2]) (by norm_num [pow2]) (by norm_num) (by norm_num)]
  norm_num [roundHalfEvenInt, pow2]

theorem pyRound2_diff :
    pyRound2 (2640235281545953 / 1125899906842624)
      = 658651445502935 / 281474976710656 := by
  unfold pyRound2
  rw [show roundHalfEvenInt ((2640235281545953 : ℚ) / 1125899906842624 * 100)
      = 234 by norm_num [roundHalfEvenInt]]
  rw [show (((234 : ℤ) : ℚ)) / 100 = 117 / 50 by norm_num]
  rw [flOfRat_eval_pos (117 / 50) 1 (by norm_num)
    (by norm_num [pow2]) (by norm_num [pow2]) (by norm_num) (by norm_num)]
  norm_num [roundHalfEvenInt, pow2]

theorem fl_val_234 :
    flOfRat (117 / 50) = 658651445502935 / 281474976710656 := by
  rw [flOfRat_eval_pos (117 / 50) 1 (by norm_num)
    (by norm_num [pow2]) (by norm_num [pow2]) (by norm_num) (by norm_num)]
  norm_num [roundHalfEvenInt, pow2]

theorem fl_val_235 :
    flOfRat (47 / 20) = 5291729562160333 / 2251799813685248 := by
  rw [flOfRat_eval_pos (47 / 20) 1 (by norm_num)
    (by norm_num [pow2]) (by norm_num [pow2]) (by norm_num) (by norm_num)]
  norm_num [roundHalfEvenInt, pow2]

theorem duration_eval_0333_2678 :
    ((MultiTranscriptionAligner.align_enhanced
        [⟨flOfRat (333 / 1000), flOfRat (2678 / 1000), "a"⟩] []).conversation.map
      ConvEntry.duration)
      = [658651445502935 / 281474976710656] := by
  have hconv : (MultiTranscriptionAligner.align_enhanced
        [⟨flOfRat (333 / 1000), flOfRat (2678 / 1000), "a"⟩] []).conversation
      = [MultiTranscriptionAligner.toConv "User" "mic"
          ⟨flOfRat (333 / 1000), flOfRat (2678 / 1000), "a"⟩] := rfl
  rw [hconv]
  show [pyRound2 (flSub (flOfRat (2678 / 1000)) (flOfRat (333 / 1000)))] = _
  rw [fl_val_2678, fl_val_0333, fl_val_diff, pyRound2_diff]

/-- C8 counterexample: for the segment whose start and end are the
binary64 values of the literals `0.333` and `2.678`, the duration computed
by `align_enhanced` is not the float `2.35` — the float subtraction
`2.678 - 0.333` yields `2.3449999999999998...`, strictly below `2.345`,
which rounds down. -/
theorem align_enhanced_duration_0333_2678_ne_235 :
    ¬ ((MultiTranscriptionAligner.align_enhanced
        [⟨flOfRat (333 / 1000), flOfRat (2678 / 1000), "a"⟩] []).conversation.map
      ConvEntry.duration) = [flOfRat (47 / 20)] := by
  rw [duration_eval_0333_2678, fl_val_235]
  simp only [List.cons.injEq, and_true]
  norm_num

/-- C8 (amended): for the segment whose start and end are the binary64
values of `0.333` and `2.678` (what the Python literals and JSON numbers
denote at runtime), the duration computed by `align_enhanced` equals the
float `2.34`: the binary64 difference is strictly below `2.345`, so
`round(..., 2)` yields `2.34`, not `2.35`. -/
theorem align_enhanced_duration_0333_2678 :
    ((MultiTranscriptionAligner.align_enhanced
        [⟨flOfRat (333 / 1000), flOfRat (2678 / 1000), "a"⟩] []).conversation.map
      ConvEntry.duration) = [flOfRat (117 / 50)] := by
  rw [duration_eval_0333_2678, fl_val_234]

/-- C2: `Aligner.align` does not complete on an empty diarization result —
its first statement `self.get_last_segment(diarization).end` evaluates
`.end` on `None` and raises `AttributeError` (embedded as `none`) before
any chunk, including one with a `null` end, can be given a substituted end
time; the `else chunk_start` fallback in the source is unreachable. -/
theorem align_none_on_empty_diarization (timestamps : List Chunk) :
    Aligner.align timestamps [] = none := rfl
